import Mathlib

/-!
Verification of the Jacobian-coordinate short-Weierstrass point arithmetic in
`lib/crypto/src/curve/sw/projective.rs`.

The base field `P::BaseField` is modelled as an arbitrary `Field F` with
decidable equality.  Field-level operations used by the source
(`square_in_place`, `double_in_place`, `neg_in_place`, `sum_of_products`) are
transcribed as `x * x`, `x + x`, `-x` and a zip-with-multiply sum, exactly as
the field contract specifies them.  The curve-configuration collaborator
(`SWCurveConfig`) supplies the curve constant `a` and the extension-degree
query; both are passed as explicit parameters (`a : F`, `extDeg12 : Bool`,
the latter standing for `[1, 2].contains(&extension_degree())`).
-/

namespace SW

/-- Jacobian coordinates for a point on a short-Weierstrass curve, mirroring
`struct Projective<P>` (fields `x`, `y`, `z` of the base field). -/
structure Projective (F : Type) where
  x : F
  y : F
  z : F
deriving DecidableEq

/-- An affine point: the external collaborator `Affine<P>`, whose `xy()`
query returns `Option<(x, y)>`, `none` exactly when the point is
the affine identity marker. -/
inductive Affine (F : Type) where
  | identity : Affine F
  | point (x y : F) : Affine F
deriving DecidableEq

variable {F : Type} [Field F] [DecidableEq F]

/-- The field contract's fused `sum_of_products`: sum of pairwise products of
two equal-length sequences. -/
def sum_of_products (xs ys : List F) : F :=
  (List.zipWith (fun a b => a * b) xs ys).sum

/-- Transcribes `Zero::is_zero`: `self.z == P::BaseField::ZERO`. -/
def isZero (p : Projective F) : Bool :=
  decide (p.z = 0)

/-- Transcribes `Zero::zero` / `AdditiveGroup::ZERO`: the canonical identity
triple `(ONE, ONE, ZERO)`. -/
def zero : Projective F :=
  ⟨1, 1, 0⟩

/-- Transcribes `Projective::new_unchecked`: stores the three coordinates
without any check. -/
def new_unchecked (x y z : F) : Projective F :=
  ⟨x, y, z⟩

/-- Transcribes `impl PartialEq for Projective::eq` (lines 58-80): identity
short-circuits, then the cross-multiplied comparison
`x1*Z2Z2 == x2*Z1Z1 && y1*(Z2Z2*z2) == y2*(Z1Z1*z1)`. -/
def eqP (p q : Projective F) : Bool :=
  if isZero p then isZero q
  else if isZero q then false
  else
    let z1z1 := p.z * p.z
    let z2z2 := q.z * q.z
    if p.x * z2z2 = q.x * z1z1 then
      decide (p.y * (z2z2 * q.z) = q.y * (z1z1 * p.z))
    else false

/-- The `a = 0` doubling branch's first sub-branch for `D` (extension degree
1 or 2): `d = x; d *= b; d.double_in_place().double_in_place()`. -/
def dExt12 (x b : F) : F :=
  let d := x * b
  let d2 := d + d
  d2 + d2

/-- The `a = 0` doubling branch's second sub-branch for `D`:
`d = x; d += b; d.square_in_place(); d -= a; d -= c; d.double_in_place()`. -/
def dGeneral (x b a c : F) : F :=
  let d := x + b
  let d2 := d * d
  let d3 := d2 - a
  let d4 := d3 - c
  d4 + d4

/-- Transcribes `AdditiveGroup::double_in_place` (lines 168-268).  `a` is the
curve constant `P::COEFF_A`; `extDeg12` is the result of
`[1, 2].contains(&P::BaseField::extension_degree())`.  The `a ≠ 0` branch's
`P::mul_by_a` hook is multiplication by the curve constant `a` (the
collaborator's "multiply field element by a" capability). -/
def doubleP (a : F) (extDeg12 : Bool) (p : Projective F) : Projective F :=
  if isZero p then p
  else if a = 0 then
    let A := p.x * p.x
    let B := p.y * p.y
    let C := B * B
    let D := if extDeg12 then dExt12 p.x B else dGeneral p.x B A C
    let E := A + (A + A)
    let z3 := p.z * p.y
    let z3 := z3 + z3
    let x3 := E * E
    let x3 := x3 - (D + D)
    let y3 := D - x3
    let y3 := y3 * E
    let c2 := C + C
    let c4 := c2 + c2
    let c8 := c4 + c4
    let y3 := y3 - c8
    ⟨x3, y3, z3⟩
  else
    let xx := p.x * p.x
    let yy := p.y * p.y
    let yyyy := yy * yy
    let zz := p.z * p.z
    let s := (p.x + yy) * (p.x + yy) - xx - yyyy
    let s := s + s
    let m := (xx + xx) + xx + a * (zz * zz)
    let x3 := m * m
    let x3 := x3 - (s + s)
    let z3 := p.z * p.y
    let z3 := z3 + z3
    let y3 := s - x3
    let y3 := y3 * m
    let y8 := yyyy + yyyy
    let y8 := y8 + y8
    let y8 := y8 + y8
    let y3 := y3 - y8
    ⟨x3, y3, z3⟩

/-- Transcribes mixed addition `impl AddAssign<T: Borrow<Affine<P>>>`
(lines 336-414, madd-2007-bl with the equal/inverse special cases). -/
def maddAssign (a : F) (extDeg12 : Bool) (p : Projective F) (q : Affine F) :
    Projective F :=
  match q with
  | .identity => p
  | .point qx qy =>
    if isZero p then ⟨qx, qy, 1⟩
    else
      let z1z1 := p.z * p.z
      let u2 := qx * z1z1
      let s2 := p.z * qy * z1z1
      if p.x = u2 then
        if p.y = s2 then doubleP a extDeg12 p
        else zero
      else
        let h := u2 - p.x
        let hh := h * h
        let i := hh + hh
        let i := i + i
        let j := (-h) * i
        let r := s2 - p.y
        let r := r + r
        let v := p.x * i
        let x3 := r * r + j - (v + v)
        let vv := v - x3
        let y2 := p.y + p.y
        let y3 := sum_of_products [r, y2] [vv, j]
        let z3 := p.z * h
        let z3 := z3 + z3
        ⟨x3, y3, z3⟩

/-- Transcribes general addition `impl AddAssign<&Self>` (lines 453-542,
add-2007-bl with the identity short-circuits and equal/inverse cases). -/
def addAssign (a : F) (extDeg12 : Bool) (p q : Projective F) : Projective F :=
  if isZero p then q
  else if isZero q then p
  else
    let z1z1 := p.z * p.z
    let z2z2 := q.z * q.z
    let u1 := p.x * z2z2
    let u2 := q.x * z1z1
    let s1 := p.y * q.z * z2z2
    let s2 := q.y * p.z * z1z1
    if u1 = u2 then
      if s1 = s2 then doubleP a extDeg12 p
      else zero
    else
      let h := u2 - u1
      let i := (h + h) * (h + h)
      let j := (-h) * i
      let r := s2 - s1
      let r := r + r
      let v := u1 * i
      let x3 := r * r + j - (v + v)
      let vv := v - x3
      let s1d := s1 + s1
      let y3 := sum_of_products [r, s1d] [vv, j]
      let z3 := p.z * q.z
      let z3 := z3 + z3
      let z3 := z3 * h
      ⟨x3, y3, z3⟩

/-- Modelled from the spec: `batch_inversion` (in `crate::curve`, not under
`src/`).  Per §4.6, the running product of the `z`'s is taken with every zero
entry skipped, that single product is inverted once, and each individual
inverse is recovered by un-rolling the running product; zero entries are
special-cased and left untouched.  `nzProd` is the product of the nonzero
entries of a list. -/
def nzProd : List F → F
  | [] => 1
  | z :: zs => (if z = 0 then 1 else z) * nzProd zs

/-- Modelled from the spec (§4.6): the reconstruction pass of
`batch_inversion`.  `pre` is the running product of the nonzero entries
already passed; `tinv` is the single inverted total product.  A nonzero entry
`z` receives `pre * tinv * (product of the nonzero entries after it)`, which
is `z⁻¹`; a zero entry is skipped unchanged. -/
def batchInvGo (pre tinv : F) : List F → List F
  | [] => []
  | z :: rest =>
    if z = 0 then z :: batchInvGo pre tinv rest
    else (pre * tinv * nzProd rest) :: batchInvGo (pre * z) tinv rest

/-- Modelled from the spec: `batch_inversion` on a sequence of field
elements — one shared inversion of the zero-skipping running product, then
per-element reconstruction. -/
def batch_inversion (zs : List F) : List F :=
  batchInvGo 1 (nzProd zs)⁻¹ zs

/-- Transcribes `CurveGroup::normalize_batch` (lines 304-323): collect the
`z` coordinates, batch-invert them, then emit the affine identity for
identity inputs and `(x * z2, y * z2 * z)` (with `z` the recovered inverse,
`z2` its square) otherwise. -/
def normalize_batch (v : List (Projective F)) : List (Affine F) :=
  let z_s := batch_inversion (v.map (fun g => g.z))
  (v.zip z_s).map (fun gz =>
    if isZero gz.1 then Affine.identity
    else
      let z2 := gz.2 * gz.2
      Affine.point (gz.1.x * z2) (gz.1.y * z2 * gz.2))

/-- Transcribes `impl From<Affine<P>> for Projective` (lines 580-589): the
identity maps to `zero`, a coordinate pair to `(x, y, 1)`. -/
def ofAffine (q : Affine F) : Projective F :=
  match q with
  | .identity => zero
  | .point x y => ⟨x, y, 1⟩

/-- Modelled from the spec: `into_affine` (a `CurveGroup` method not under
`src/`).  Per §3, a projective triple with `z ≠ 0` denotes the affine point
`(x / z², y / z³)`; `z = 0` denotes the affine identity. -/
def into_affine (p : Projective F) : Affine F :=
  if p.z = 0 then Affine.identity
  else Affine.point (p.x * (p.z⁻¹ * p.z⁻¹)) (p.y * (p.z⁻¹ * (p.z⁻¹ * p.z⁻¹)))

/-- Transcribes `Projective::new` (lines 119-124): normalize to affine,
assert `is_on_curve` and `is_in_prime_order_subgroup` (a failed assert
panics, modelled as `none`), then convert back.  The two membership
predicates live in the affine collaborator (not under `src/`) and are taken
as abstract parameters. -/
def newChecked (onCurve inSub : Affine F → Bool) (x y z : F) :
    Option (Projective F) :=
  let p := into_affine (new_unchecked x y z)
  if onCurve p then
    if inSub p then some (ofAffine p) else none
  else none

end SW

namespace SW

variable {F : Type} [Field F] [DecidableEq F]

/-- Equality is reflexive on every representation: helper for the doubling
consistency theorem. -/
theorem eqP_refl (r : Projective F) : eqP r r = true := by
  by_cases h : r.z = 0 <;> simp [eqP, isZero, h]

/-- Feeding the same point to both sides of general addition takes exactly
the `u1 = u2`, `s1 = s2` path, so `p + p` literally is `double_in_place p`. -/
theorem addAssign_self (a : F) (e : Bool) (p : Projective F) :
    addAssign a e p p = doubleP a e p := by
  by_cases hz : p.z = 0
  · simp [addAssign, doubleP, isZero, hz]
  · simp [addAssign, isZero, hz]

omit [DecidableEq F] in
/-- The two sub-branches computing `D` in the `a = 0` doubling branch agree:
`4·x·B = 2·((x+B)² − x² − B²)` with `B = y²`, a ring identity. -/
theorem d_branches (x y : F) :
    dExt12 x (y * y) = dGeneral x (y * y) (x * x) ((y * y) * (y * y)) := by
  simp [dExt12, dGeneral]; ring

/-- The zero-skipping running product is never zero in a field. -/
theorem nzProd_ne_zero (l : List F) : nzProd l ≠ 0 := by
  induction l with
  | nil => simp [nzProd]
  | cons z zs ih =>
    by_cases hz : z = 0 <;> simp [nzProd, hz, ih]

/-- Correctness of the reconstruction pass of the spec-modelled
`batch_inversion`: with a correct running product and the inverted total,
every nonzero entry receives its inverse and every zero entry is skipped. -/
theorem batchInvGo_spec (l : List F) :
    ∀ pre : F, pre ≠ 0 →
      batchInvGo pre (pre * nzProd l)⁻¹ l =
        l.map (fun z => if z = 0 then z else z⁻¹) := by
  induction l with
  | nil => intro pre _; rfl
  | cons z rest ih =>
    intro pre hpre
    by_cases hz : z = 0
    · simp only [batchInvGo, if_pos hz, nzProd, List.map_cons, one_mul]
      exact congrArg _ (ih pre hpre)
    · simp only [batchInvGo, if_neg hz, nzProd, List.map_cons]
      refine List.cons_eq_cons.mpr ⟨?_, ?_⟩
      · have hr : nzProd rest ≠ 0 := nzProd_ne_zero rest
        field_simp
        ring
      · have h2 := ih (pre * z) (mul_ne_zero hpre hz)
        rw [mul_assoc] at h2
        exact h2

/-- The batch inversion maps every nonzero entry to its inverse and leaves
zero entries untouched: the zero entries do not corrupt the others. -/
theorem batch_inversion_eq (zs : List F) :
    batch_inversion zs = zs.map (fun z => if z = 0 then z else z⁻¹) := by
  have h := batchInvGo_spec zs 1 one_ne_zero
  rw [one_mul] at h
  exact h

/-- C1: for every pair of projective points `p` and `q`, the equality test
returns: if either point has `z = 0`, true iff both have `z = 0`; otherwise
true iff `x1·z2² = x2·z1²` and `y1·(z2²·z2) = y2·(z1²·z1)`.  (The definition
of `eqP`, transcribed from the source, contains no field inversion.) -/
theorem eq_cross_mul_characterization (p q : Projective F) :
    eqP p q = true ↔
      (if p.z = 0 ∨ q.z = 0 then p.z = 0 ∧ q.z = 0
       else p.x * (q.z * q.z) = q.x * (p.z * p.z) ∧
            p.y * ((q.z * q.z) * q.z) = q.y * ((p.z * p.z) * p.z)) := by
  by_cases hp : p.z = 0 <;> by_cases hq : q.z = 0 <;>
    simp [eqP, isZero, hp, hq]

/-- C2: mixed addition of an affine operand is a no-op on the affine
identity; lifts the operand when the accumulator is the identity; doubles
when the operands coincide; returns the identity when they are inverses; and
otherwise follows madd-2007-bl: `H = U2 − x`, `I = 4H²`, `J = −H·I`,
`r = 2(S2 − y)`, `V = x·I`, `x₃ = r² + J − 2V`,
`y₃ = r·(V − x₃) + 2·y·J`, `z₃ = 2·z·H`. -/
theorem madd_assign_characterization (a : F) (e : Bool) (p : Projective F)
    (qx qy : F) :
    maddAssign a e p Affine.identity = p ∧
    maddAssign a e p (Affine.point qx qy) =
      (if p.z = 0 then ⟨qx, qy, 1⟩
       else
         let u2 := qx * (p.z * p.z)
         let s2 := p.z * qy * (p.z * p.z)
         if p.x = u2 then
           (if p.y = s2 then doubleP a e p else zero)
         else
           let h := u2 - p.x
           let i := 4 * (h * h)
           let j := -h * i
           let r := 2 * (s2 - p.y)
           let v := p.x * i
           let x3 := r * r + j - 2 * v
           ⟨x3, r * (v - x3) + 2 * p.y * j, 2 * p.z * h⟩) := by
  refine ⟨rfl, ?_⟩
  by_cases hz : p.z = 0
  · simp [maddAssign, isZero, hz]
  · by_cases h1 : p.x = qx * (p.z * p.z)
    · by_cases h2 : p.y = p.z * qy * (p.z * p.z) <;>
        simp [maddAssign, isZero, hz, h1, h2]
    · simp [maddAssign, isZero, hz, h1, sum_of_products, Projective.mk.injEq]
      refine ⟨by ring, by ring, by ring⟩

/-- C3: `double_in_place` is total; it leaves the identity unchanged, and on
a curve with `a = 0` it computes the dbl-2009-l steps
`A = x²`, `B = y²`, `C = B²`, `D = 2·((x+B)² − A − C)`, `E = 3A`,
`z₃ = 2·y·z`, `x₃ = E² − 2D`, `y₃ = E·(D − x₃) − 8C`
(for either value of the extension-degree test). -/
theorem double_in_place_a_zero_characterization (e : Bool) (p : Projective F) :
    doubleP 0 e p =
      (if p.z = 0 then p
       else
         let A := p.x * p.x
         let B := p.y * p.y
         let C := B * B
         let D := 2 * ((p.x + B) * (p.x + B) - A - C)
         let E := 3 * A
         let x3 := E * E - 2 * D
         ⟨x3, E * (D - x3) - 8 * C, 2 * p.y * p.z⟩) := by
  by_cases hz : p.z = 0
  · simp [doubleP, isZero, hz]
  · cases e <;>
      simp [doubleP, isZero, hz, dExt12, dGeneral, Projective.mk.injEq] <;>
      refine ⟨by ring, by ring, by ring⟩

/-- C4: `normalize_batch` maps each identity input (`z = 0`) to the affine
identity marker and every other input to `(x·z⁻², y·z⁻³)`, in order, with one
output per input; the zero `z` coordinates are skipped by the batch
inversion and do not corrupt the other entries; the empty input yields the
empty output. -/
theorem normalize_batch_characterization (v : List (Projective F)) :
    normalize_batch v =
      v.map (fun g =>
        if g.z = 0 then Affine.identity
        else Affine.point (g.x * g.z⁻¹ ^ 2) (g.y * g.z⁻¹ ^ 3)) ∧
    (normalize_batch v).length = v.length ∧
    normalize_batch ([] : List (Projective F)) = [] := by
  have hmain : normalize_batch v =
      v.map (fun g =>
        if g.z = 0 then Affine.identity
        else Affine.point (g.x * g.z⁻¹ ^ 2) (g.y * g.z⁻¹ ^ 3)) := by
    unfold normalize_batch
    rw [batch_inversion_eq, List.map_map]
    induction v with
    | nil => rfl
    | cons g gs ih =>
      simp only [List.map_cons, List.zip_cons_cons]
      refine List.cons_eq_cons.mpr ⟨?_, ih⟩
      by_cases hz : g.z = 0
      · simp [isZero, hz]
      · simp only [isZero, hz, Function.comp, decide_False, Bool.false_eq_true,
          if_false, if_neg hz]
        rw [Affine.point.injEq]
        constructor
        · ring
        · ring
  refine ⟨hmain, ?_, rfl⟩
  rw [hmain, List.length_map]

/-- C5: for every point (identity and order-two points included) and every
curve constant, doubling agrees — under the projective-equivalence equality
test — with the general addition `p + p`. -/
theorem double_consistent_with_add_self (a : F) (e : Bool) (p : Projective F) :
    eqP (doubleP a e p) (addAssign a e p p) = true := by
  rw [addAssign_self]
  exact eqP_refl _

/-- C6: for every nonzero field element `k` and non-identity point
`(x, y, z)`, the scaled triple `(k²x, k³y, kz)` is judged equal to
`(x, y, z)` by the equality test. -/
theorem eq_scaling_invariance (k : F) (p : Projective F) (hk : k ≠ 0)
    (hz : p.z ≠ 0) :
    eqP ⟨k ^ 2 * p.x, k ^ 3 * p.y, k * p.z⟩ p = true := by
  have hkz : k * p.z ≠ 0 := mul_ne_zero hk hz
  simp only [eqP, isZero, decide_eq_true_eq]
  rw [if_neg (by simpa using hkz), if_neg (by simpa using hz),
    if_pos (by ring : k ^ 2 * p.x * (p.z * p.z) = p.x * (k * p.z * (k * p.z)))]
  simp only [decide_eq_true_eq]
  ring

/-- C7: the two sub-branches computing `D` in the `a = 0` doubling branch
(`4·x·B` for extension degree 1 or 2, `2·((x+B)² − A − C)` otherwise)
produce identical results, so the extension-degree test never changes the
output of `double_in_place`. -/
theorem double_extension_degree_branch_irrelevant (x y : F) (p : Projective F)
    (e e' : Bool) :
    dExt12 x (y * y) = dGeneral x (y * y) (x * x) ((y * y) * (y * y)) ∧
    doubleP 0 e p = doubleP 0 e' p := by
  refine ⟨d_branches x y, ?_⟩
  by_cases hz : p.z = 0
  · simp [doubleP, isZero, hz]
  · cases e <;> cases e' <;> simp [doubleP, isZero, hz, d_branches]

/-- C8: when either operand of general projective addition is the identity,
the result is the other operand with exactly its representation's `x`, `y`,
`z` fields — the identity test is the outermost branch of the definition,
taken before `Z1Z1`/`Z2Z2` enter the computation. -/
theorem add_assign_identity_short_circuit (a : F) (e : Bool)
    (p q : Projective F) (h : p.z = 0 ∨ q.z = 0) :
    addAssign a e p q = if p.z = 0 then q else p := by
  by_cases hp : p.z = 0
  · simp [addAssign, isZero, hp]
  · rcases h with h | h
    · exact absurd h hp
    · simp [addAssign, isZero, hp, h]

/-- C9: the checked constructor fails (the source panics; modelled as
`none`) exactly when the coordinates normalized to affine fail the on-curve
check or the prime-order-subgroup check, for arbitrary membership
predicates; the unchecked constructor is total and returns the raw triple
for every input. -/
theorem checked_unchecked_constructor_behavior
    (onCurve inSub : Affine F → Bool) (x y z : F) :
    (newChecked onCurve inSub x y z = none ↔
      ¬(onCurve (into_affine (new_unchecked x y z)) = true ∧
        inSub (into_affine (new_unchecked x y z)) = true)) ∧
    new_unchecked x y z = ⟨x, y, z⟩ := by
  refine ⟨?_, rfl⟩
  unfold newChecked
  by_cases h1 : onCurve (into_affine (new_unchecked x y z)) = true <;>
    by_cases h2 : inSub (into_affine (new_unchecked x y z)) = true <;>
    simp [h1, h2]

/-- C10: whenever mixed or general addition detects additive inverses
(`x`-parts match, `y`-parts differ), the accumulator is overwritten with the
canonical zero triple `(ONE, ONE, ZERO)` — not merely some triple with
`z = 0`. -/
theorem inverse_case_yields_canonical_zero (a : F) (e : Bool)
    (p q : Projective F) (qx qy : F)
    (hpz : p.z ≠ 0)
    (hmx : p.x = qx * (p.z * p.z))
    (hmy : p.y ≠ p.z * qy * (p.z * p.z))
    (hqz : q.z ≠ 0)
    (hu : p.x * (q.z * q.z) = q.x * (p.z * p.z))
    (hs : p.y * q.z * (q.z * q.z) ≠ q.y * p.z * (p.z * p.z)) :
    maddAssign a e p (Affine.point qx qy) = zero ∧
    addAssign a e p q = zero ∧
    zero = (⟨1, 1, 0⟩ : Projective F) := by
  refine ⟨?_, ?_, rfl⟩
  · simp [maddAssign, isZero, hpz, hmx, hmy]
  · simp [addAssign, isZero, hpz, hqz, hu, hs]

instance : Fact (Nat.Prime 13) := ⟨by norm_num⟩

/-- Concrete instantiation of C6 over the field with 13 elements: scaling
`(1, 2, 3)` by `k = 2`. -/
theorem eq_scaling_invariance_witness :
    (2 : ZMod 13) ≠ 0 ∧ (⟨1, 2, 3⟩ : Projective (ZMod 13)).z ≠ 0 ∧
    eqP ⟨(2 : ZMod 13) ^ 2 * 1, 2 ^ 3 * 2, 2 * 3⟩
      (⟨1, 2, 3⟩ : Projective (ZMod 13)) = true :=
  ⟨by decide, by decide, eq_scaling_invariance 2 ⟨1, 2, 3⟩ (by decide) (by decide)⟩

/-- Concrete instantiation of C8 over the field with 13 elements: the
canonical identity plus `(2, 3, 1)`. -/
theorem add_assign_identity_short_circuit_witness :
    ((⟨1, 1, 0⟩ : Projective (ZMod 13)).z = 0 ∨
      (⟨2, 3, 1⟩ : Projective (ZMod 13)).z = 0) ∧
    addAssign 0 true (⟨1, 1, 0⟩ : Projective (ZMod 13)) ⟨2, 3, 1⟩ =
      (if (⟨1, 1, 0⟩ : Projective (ZMod 13)).z = 0 then ⟨2, 3, 1⟩
       else ⟨1, 1, 0⟩) :=
  ⟨Or.inl (by decide),
    add_assign_identity_short_circuit 0 true ⟨1, 1, 0⟩ ⟨2, 3, 1⟩
      (Or.inl (by decide))⟩

/-- Concrete instantiation of C10 over the field with 13 elements:
`(1, 2, 1)` plus its negation `(1, 11, 1)` (affine and projective). -/
theorem inverse_case_yields_canonical_zero_witness :
    ((⟨1, 2, 1⟩ : Projective (ZMod 13)).z ≠ 0 ∧
     (⟨1, 2, 1⟩ : Projective (ZMod 13)).x =
       1 * ((⟨1, 2, 1⟩ : Projective (ZMod 13)).z *
         (⟨1, 2, 1⟩ : Projective (ZMod 13)).z) ∧
     (⟨1, 2, 1⟩ : Projective (ZMod 13)).y ≠
       (⟨1, 2, 1⟩ : Projective (ZMod 13)).z * 11 *
         ((⟨1, 2, 1⟩ : Projective (ZMod 13)).z *
           (⟨1, 2, 1⟩ : Projective (ZMod 13)).z) ∧
     (⟨1, 11, 1⟩ : Projective (ZMod 13)).z ≠ 0) ∧
    maddAssign 0 true (⟨1, 2, 1⟩ : Projective (ZMod 13))
      (Affine.point 1 11) = zero ∧
    addAssign 0 true (⟨1, 2, 1⟩ : Projective (ZMod 13)) ⟨1, 11, 1⟩ = zero ∧
    zero = (⟨1, 1, 0⟩ : Projective (ZMod 13)) :=
  ⟨⟨by decide, by decide, by decide, by decide⟩,
    inverse_case_yields_canonical_zero 0 true ⟨1, 2, 1⟩ ⟨1, 11, 1⟩ 1 11
      (by decide) (by decide) (by decide) (by decide) (by decide) (by decide)⟩

end SW
